import Mathlib

/-
  Verification development for the Stage_1 hierarchical index
  (src/.idea/stage1/Hierarchical_Indext/indexer_v2.py,
   src/.idea/stage1/Hierarchical_Indext/search_v2.py,
   src/.idea/stage1/control/control_panel_v2.py).

  Modelling conventions:
  * A posting file holds newline-delimited decimal document IDs; we model the
    file content as a `List Nat` (the numeric values of its lines, in order).
  * The on-disk index (INDEX_ROOT_V2) is modelled as an association list from
    the term (the file stem `<term>.txt`) to the file content; the bucket
    directory is a pure function of the term (`bucket_for_term`), so keying by
    term alone is faithful.
  * Python string routines are modelled over their ASCII fragment: the regex
    `\w` becomes alphanumeric-or-underscore, `str.lower`/`str.upper` become
    the ASCII character maps.  All inputs appearing in the specification are
    ASCII.
  * The NLTK stopword download is environment-dependent; the model uses the
    hardcoded fallback stopword list that `_load_stopwords` installs when NLTK
    is unavailable (indexer_v2.py lines 22-27).
-/

namespace Stage1

/-- Model of Python `\w` (word character) over the ASCII fragment:
letters, digits, or underscore. -/
def isWordChar (c : Char) : Bool := c.isAlphanum || c = '_'

/-- Accumulator version of splitting a character list into the maximal runs of
word characters (`acc` holds the current run, reversed). -/
def wordRunsAux : List Char → List Char → List String
  | [], acc => if acc.isEmpty then [] else [String.mk acc.reverse]
  | c :: cs, acc =>
    if isWordChar c then wordRunsAux cs (c :: acc)
    else if acc.isEmpty then wordRunsAux cs []
    else String.mk acc.reverse :: wordRunsAux cs []

/-- Model of `WORD_RE.findall` where `WORD_RE = re.compile(r"\b\w+\b")`: the
maximal runs of word characters of the text (given as its character list), in
order. -/
def findall_words (cs : List Char) : List String := wordRunsAux cs []

/-- Model of `text.replace("_", " ")` at the character level: a
single-character pattern replacement is a character map. -/
def underscoreToSpace (c : Char) : Char := if c = '_' then ' ' else c

/-- The hardcoded fallback stopword set from `_load_stopwords`
(indexer_v2.py lines 22-27). -/
def STOPWORDS : List String :=
  ["a", "an", "and", "are", "as", "at", "be", "by", "for", "from", "has",
   "he", "in", "is", "it", "its", "of", "on", "that", "the", "to", "was",
   "were", "will", "with", "this", "these", "those", "or", "not", "but",
   "you", "your", "i", "we", "they", "she", "him", "her", "them", "our"]

/-- Model of `tokenize` (indexer_v2.py lines 33-37): replace underscores by
spaces, lowercase, extract maximal word-character runs, drop stopwords.
Returns the surviving tokens as a list, in order of occurrence. -/
def tokenize (text : String) : List String :=
  (findall_words ((text.data.map underscoreToSpace).map Char.toLower)).filter
    (fun t => !STOPWORDS.contains t)

/-- Model of `bucket_for_term` (indexer_v2.py lines 39-47): empty term goes to
bucket "0-9"; a first character that uppercases to an ASCII letter names the
bucket; anything else (digit branch and final fallthrough) goes to "0-9". -/
def bucket_for_term (term : String) : String :=
  match term.data with
  | [] => "0-9"
  | c :: _ =>
    let u := c.toUpper
    if 'A' ≤ u ∧ u ≤ 'Z' then String.mk [u]
    else if c.isDigit then "0-9"
    else "0-9"

/-- Insert a document ID into a (sorted, duplicate-free) list, keeping it
sorted and duplicate-free. -/
def insertId (b : Nat) : List Nat → List Nat
  | [] => [b]
  | x :: xs =>
    if b < x then b :: x :: xs
    else if b = x then x :: xs
    else x :: insertId b xs

/-- Model of Python `sorted(set(l), key=int)`: the distinct elements of `l` in
ascending numeric order. -/
def setSorted (l : List Nat) : List Nat := l.foldr insertId []

/-- The on-disk index: association list from term to the posting-file content
(list of document IDs, one per line).  A term with no binding corresponds to a
posting file that does not exist. -/
abbrev Store := List (String × List Nat)

/-- Reading a posting file: the first binding for the term, or `[]` when the
file does not exist (both write paths only ever create non-empty files, so an
absent binding and an empty file coincide). -/
def Store.readFile : Store → String → List Nat
  | [], _ => []
  | (t, l) :: rest, term => if t = term then l else Store.readFile rest term

/-- Writing a posting file: replace any existing binding for the term. -/
def Store.writeFile (st : Store) (term : String) (lines : List Nat) : Store :=
  (term, lines) :: st.filter (fun p => p.1 ≠ term)

/-- Model of `_append_book_to_term_file` (indexer_v2.py lines 118-140): read
the existing IDs (empty if the file is missing), add `book_id` as a set
element, write back sorted numerically. -/
def append_book_to_term_file (st : Store) (term : String) (book_id : Nat) :
    Store :=
  let ids := st.readFile term
  st.writeFile term (setSorted (book_id :: ids))

/-- The per-document update loop of `index_book_incremental`
(`for term in all_terms: _append_book_to_term_file(term, book_id)`). -/
def index_terms (st : Store) (terms : List String) (book_id : Nat) : Store :=
  terms.foldl (fun s t => append_book_to_term_file s t book_id) st

/-- Model of the `UpdateDocument(docID, text)` operation of the specification:
the successful body of `index_book_incremental` (indexer_v2.py lines 142-167)
once the text of the document has been read — the unique tokens of the text (`set(tokenize(text))`,
modelled as the deduplicated token list) are each appended to their posting
file. -/
def update_document (st : Store) (book_id : Nat) (text : String) : Store :=
  index_terms st (tokenize text).dedup book_id

/-- Error taxonomy of `index_book_incremental`: `notFound` models the
`FileNotFoundError` raised when no source file exists for the book;
`storageError` stands for any other (generic) failure, which this function
never raises itself (per-file read errors are swallowed by its
`try/except: continue`). -/
inductive IndexError where
  | notFound
  | storageError
deriving DecidableEq

/-- Model of `index_book_incremental` (indexer_v2.py lines 142-167) with the
default `include_header=False, include_footer=False`: `content` is the text of
`<book_id>_content.txt` when that file exists in the data lake, `none`
otherwise.  With no source file the function raises `FileNotFoundError`
(modelled as `Except.error .notFound`); otherwise it updates the posting file
of every unique token of the text. -/
def index_book_incremental (st : Store) (book_id : Nat)
    (content : Option String) : Except IndexError Store :=
  match content with
  | none => Except.error IndexError.notFound
  | some text => Except.ok (update_document st book_id text)

/-- Sequential incremental build: one `UpdateDocument` per corpus document, in
order, starting from the given store. -/
def run_updates (st : Store) (corpus : List (Nat × String)) : Store :=
  corpus.foldl (fun s d => update_document s d.1 d.2) st

/-- One `postings[term].add(book_id)` step of `build_hierarchical_index`:
the in-memory `defaultdict(set)` is modelled as a `Store` whose values are
unsorted duplicate-free lists. -/
def postings_add (post : Store) (term : String) (book_id : Nat) : Store :=
  let cur := post.readFile term
  if book_id ∈ cur then post else post.writeFile term (book_id :: cur)

/-- The accumulation loop of `build_hierarchical_index` (indexer_v2.py lines
80-93): for every corpus document, add its ID to the in-memory posting set of
each of its unique tokens. -/
def build_postings (corpus : List (Nat × String)) : Store :=
  corpus.foldl
    (fun post d => (tokenize d.2).dedup.foldl (fun p t => postings_add p t d.1) post)
    []

/-- Model of `build_hierarchical_index` with `clean=True` (indexer_v2.py lines
67-102): the corpus is the list of `(book_id, content)` pairs recovered from
the data-lake files; after accumulation, the posting set of each term is written
out sorted by numeric value (`sorted(ids, key=lambda s: int(s))`). -/
def build_hierarchical_index (corpus : List (Nat × String)) : Store :=
  (build_postings corpus).map (fun p => (p.1, setSorted p.2))

/-- Model of the `Lookup(term)` operation of the specification: read the posting file stored for the
exact term (empty when the file does not exist). -/
def Lookup (st : Store) (term : String) : List Nat := st.readFile term

/-- Model of `_normalize_term` (search_v2.py lines 12-16): replace underscores
by spaces, lowercase, extract word-character runs, drop stopwords, and return
the first surviving token (empty string when none survives). -/
def normalize_term (term : String) : String :=
  ((findall_words ((term.data.map underscoreToSpace).map Char.toLower)).filter
    (fun w => !STOPWORDS.contains w)).headD ""

/-- Model of `search_postings` (search_v2.py lines 48-57): normalize the query
and read the posting file of the normalized term; an empty normalization
returns `[]` without touching the store.  (The LRU read cache
`_read_postings_file_cached` memoizes `Store.readFile` per path and is
semantically transparent on a store that is not mutated between reads, so it
is elided.) -/
def search_postings (st : Store) (term : String) : List Nat :=
  let tn := normalize_term term
  if tn = "" then [] else st.readFile tn

/-- State of the indexing worker (`ControlPanelV2._run_consumer`): the index
store plus the `INDEXED_FILE` ledger (append-only list of indexed book IDs).
The metadata branch of the consumer (METADATA_FILE, the SQLite store) never
touches the index store or the indexed ledger and is elided. -/
structure ConsState where
  store : Store
  indexed : List Nat
deriving DecidableEq

/-- One consumer iteration for a dequeued book ID (control_panel_v2.py lines
158-179, indexing branch): a book already in the indexed ledger is skipped;
otherwise `index_book_incremental` is called — on success the ID is appended
to the ledger, on failure it is not.  The second component records the IDs
passed to `index_book_incremental` (the index-store update). -/
def processItem (contents : Nat → Option String) (s : ConsState) (b : Nat) :
    ConsState × List Nat :=
  if b ∈ s.indexed then (s, [])
  else
    match index_book_incremental s.store b (contents b) with
    | Except.ok st2 => (⟨st2, s.indexed ++ [b]⟩, [b])
    | Except.error _ => (s, [b])

/-- The consumer loop over the queue contents (control_panel_v2.py lines
148-230): items are processed in FIFO order until the sentinel `none`
arrives.  Returns the final state and the concatenated trace of IDs passed to
the index-store update. -/
def run_consumer (contents : Nat → Option String) (s : ConsState) :
    List (Option Nat) → ConsState × List Nat
  | [] => (s, [])
  | none :: _ => (s, [])
  | some b :: rest =>
    let r := processItem contents s b
    let r2 := run_consumer contents r.1 rest
    (r2.1, r.2 ++ r2.2)

/-- An operation on the bounded queue shared by the producer and consumer. -/
inductive QAction where
  | put (b : Nat)
  | get
deriving DecidableEq

/-- Modelled from the spec: the bounded blocking FIFO queue
(`queue.Queue(maxsize=queue_size)` of the Python standard library, whose
implementation is not part of this repository; control_panel_v2.py line 53
constructs it, line 137 pushes to it).  `qrun cap q acts` executes a schedule
of queue operations: a `put` completes only when the queue holds fewer than
`cap` items and a `get` only when the queue is non-empty; `none` means the
schedule reaches an operation that would block (the caller does not return
until some other thread changes the queue). -/
def qrun (cap : Nat) : List Nat → List QAction → Option (List Nat)
  | q, [] => some q
  | q, QAction.put b :: rest =>
    if q.length < cap then qrun cap (q ++ [b]) rest else none
  | q, QAction.get :: rest =>
    match q with
    | [] => none
    | _ :: q2 => qrun cap q2 rest

/-- The queue operations issued by `_run_producer` for its successfully
fetched book IDs (control_panel_v2.py line 137: after each successful
download, `self.q.put(book_id)`). -/
def producer_actions (fetched : List Nat) : List QAction :=
  fetched.map QAction.put

/-! Basic lemmas about `insertId` and `setSorted`. -/

theorem setSorted_nil : setSorted [] = [] := rfl

theorem setSorted_cons (x : Nat) (xs : List Nat) :
    setSorted (x :: xs) = insertId x (setSorted xs) := rfl

theorem mem_insertId {x b : Nat} {l : List Nat} :
    x ∈ insertId b l ↔ x = b ∨ x ∈ l := by
  induction l with
  | nil => simp [insertId]
  | cons y ys ih =>
    unfold insertId
    by_cases h1 : b < y
    · simp only [if_pos h1, List.mem_cons]
    · by_cases h2 : b = y
      · simp only [if_neg h1, if_pos h2, List.mem_cons]
        subst h2
        tauto
      · simp only [if_neg h1, if_neg h2, List.mem_cons, ih]
        tauto

theorem sorted_insertId {b : Nat} {l : List Nat} (h : l.Sorted (· < ·)) :
    (insertId b l).Sorted (· < ·) := by
  induction l with
  | nil => simp [insertId]
  | cons y ys ih =>
    rw [List.sorted_cons] at h
    obtain ⟨hy, hys⟩ := h
    unfold insertId
    by_cases h1 : b < y
    · simp only [if_pos h1]
      rw [List.sorted_cons]
      refine ⟨fun z hz => ?_, List.sorted_cons.2 ⟨hy, hys⟩⟩
      rcases List.mem_cons.1 hz with rfl | hz
      · exact h1
      · exact h1.trans (hy z hz)
    · by_cases h2 : b = y
      · simp only [if_neg h1, if_pos h2]
        exact List.sorted_cons.2 ⟨hy, hys⟩
      · simp only [if_neg h1, if_neg h2]
        rw [List.sorted_cons]
        refine ⟨fun z hz => ?_, ih hys⟩
        rcases mem_insertId.1 hz with rfl | hz
        · omega
        · exact hy z hz

theorem sorted_setSorted (l : List Nat) : (setSorted l).Sorted (· < ·) := by
  induction l with
  | nil => exact List.sorted_nil
  | cons x xs ih => exact sorted_insertId ih

theorem mem_setSorted {x : Nat} {l : List Nat} : x ∈ setSorted l ↔ x ∈ l := by
  induction l with
  | nil => simp [setSorted]
  | cons y ys ih =>
    rw [setSorted_cons, mem_insertId, ih, List.mem_cons]

theorem nodup_setSorted (l : List Nat) : (setSorted l).Nodup :=
  (sorted_setSorted l).nodup

theorem setSorted_eq_of_mem_iff {l₁ l₂ : List Nat}
    (h : ∀ x, x ∈ l₁ ↔ x ∈ l₂) : setSorted l₁ = setSorted l₂ := by
  haveI : IsAntisymm Nat (· < ·) :=
    ⟨fun a b h1 h2 => absurd h2 (Nat.lt_asymm h1)⟩
  refine List.eq_of_perm_of_sorted ?_ (sorted_setSorted l₁) (sorted_setSorted l₂)
  refine (List.perm_ext_iff_of_nodup (nodup_setSorted l₁) (nodup_setSorted l₂)).2 ?_
  intro x
  rw [mem_setSorted, mem_setSorted]
  exact h x

theorem setSorted_cons_setSorted (b : Nat) (l : List Nat) :
    setSorted (b :: setSorted l) = setSorted (b :: l) :=
  setSorted_eq_of_mem_iff (by intro x; simp [List.mem_cons, mem_setSorted])

theorem setSorted_cons_self (b : Nat) (l : List Nat) :
    setSorted (b :: b :: l) = setSorted (b :: l) :=
  setSorted_eq_of_mem_iff (by intro x; simp [List.mem_cons])

/-! Basic lemmas about the store. -/

theorem readFile_cons (t : String) (l : List Nat) (ps : Store) (u : String) :
    Store.readFile ((t, l) :: ps) u = if t = u then l else ps.readFile u := rfl

theorem readFile_filter_ne {st : Store} {term u : String} (h : term ≠ u) :
    Store.readFile (st.filter (fun p => p.1 ≠ term)) u = st.readFile u := by
  induction st with
  | nil => rfl
  | cons p ps ih =>
    obtain ⟨t, l⟩ := p
    rw [List.filter_cons]
    by_cases hp : t = term
    · rw [if_neg (by simp [hp]), ih, readFile_cons,
        if_neg (fun e : t = u => h (hp ▸ e))]
    · rw [if_pos (by simp [hp]), readFile_cons, readFile_cons]
      by_cases hu : t = u
      · rw [if_pos hu, if_pos hu]
      · rw [if_neg hu, if_neg hu, ih]

theorem readFile_writeFile (st : Store) (term u : String) (lines : List Nat) :
    (st.writeFile term lines).readFile u =
      if term = u then lines else st.readFile u := by
  unfold Store.writeFile
  by_cases h : term = u
  · simp [Store.readFile, h]
  · simp only [Store.readFile, if_neg h]
    exact readFile_filter_ne h

theorem readFile_append_book (st : Store) (term : String) (b : Nat)
    (u : String) :
    (append_book_to_term_file st term b).readFile u =
      if term = u then setSorted (b :: st.readFile u) else st.readFile u := by
  unfold append_book_to_term_file
  rw [readFile_writeFile]
  by_cases h : term = u
  · simp [h]
  · simp [h]

theorem readFile_index_terms (terms : List String) (st : Store) (b : Nat)
    (u : String) :
    (index_terms st terms b).readFile u =
      if u ∈ terms then setSorted (b :: st.readFile u) else st.readFile u := by
  induction terms generalizing st with
  | nil => simp [index_terms]
  | cons t ts ih =>
    show (index_terms (append_book_to_term_file st t b) ts b).readFile u = _
    rw [ih]
    by_cases hts : u ∈ ts
    · rw [if_pos hts, if_pos (List.mem_cons.2 (Or.inr hts))]
      rw [readFile_append_book]
      by_cases ht : t = u
      · rw [if_pos ht, setSorted_cons_setSorted, setSorted_cons_self]
      · rw [if_neg ht]
    · rw [if_neg hts, readFile_append_book]
      by_cases ht : t = u
      · rw [if_pos ht, if_pos (List.mem_cons.2 (Or.inl ht.symm))]
      · rw [if_neg ht,
          if_neg (by rw [List.mem_cons]; rintro (h | hm)
                     · exact ht h.symm
                     · exact hts hm)]

theorem readFile_update_document (st : Store) (b : Nat) (text : String)
    (u : String) :
    (update_document st b text).readFile u =
      if u ∈ tokenize text then setSorted (b :: st.readFile u)
      else st.readFile u := by
  unfold update_document
  rw [readFile_index_terms]
  by_cases h : u ∈ tokenize text
  · rw [if_pos (List.mem_dedup.2 h), if_pos h]
  · rw [if_neg (fun hm => h (List.mem_dedup.1 hm)), if_neg h]

/-! Characterization of the two build paths: each posting file holds exactly
the sorted set of IDs of the corpus documents containing the term. -/

/-- The reference posting list of a term: the IDs of the corpus documents
whose token list contains the term, in corpus order. -/
def idsOf (corpus : List (Nat × String)) (term : String) : List Nat :=
  (corpus.filter (fun d => term ∈ tokenize d.2)).map Prod.fst

theorem idsOf_append (c₁ c₂ : List (Nat × String)) (term : String) :
    idsOf (c₁ ++ c₂) term = idsOf c₁ term ++ idsOf c₂ term := by
  simp [idsOf, List.filter_append]

theorem idsOf_single (d : Nat × String) (term : String) :
    idsOf [d] term = if term ∈ tokenize d.2 then [d.1] else [] := by
  by_cases h : term ∈ tokenize d.2
  · simp [idsOf, List.filter_cons, h]
  · simp [idsOf, List.filter_cons, h]

theorem readFile_run_updates (corpus : List (Nat × String)) (term : String) :
    (run_updates [] corpus).readFile term = setSorted (idsOf corpus term) := by
  induction corpus using List.reverseRecOn with
  | nil => rfl
  | append_singleton docs d ih =>
    unfold run_updates
    rw [List.foldl_append]
    show (update_document (run_updates [] docs) d.1 d.2).readFile term = _
    rw [readFile_update_document, ih, idsOf_append, idsOf_single]
    by_cases h : term ∈ tokenize d.2
    · rw [if_pos h, if_pos h, setSorted_cons_setSorted]
      exact setSorted_eq_of_mem_iff
        (by intro x; simp [List.mem_cons, List.mem_append]; tauto)
    · rw [if_neg h, if_neg h, List.append_nil]

theorem mem_readFile_postings_add {post : Store} {term u : String}
    {b x : Nat} :
    x ∈ (postings_add post term b).readFile u ↔
      (term = u ∧ x = b) ∨ x ∈ post.readFile u := by
  unfold postings_add
  by_cases hmem : b ∈ post.readFile term
  · rw [if_pos hmem]
    constructor
    · tauto
    · rintro (⟨rfl, rfl⟩ | h)
      · exact hmem
      · exact h
  · rw [if_neg hmem, readFile_writeFile]
    by_cases ht : term = u
    · subst ht
      rw [if_pos rfl, List.mem_cons]
      tauto
    · rw [if_neg ht]
      tauto

theorem mem_readFile_fold_postings (ts : List String) (post : Store) (b : Nat)
    (u : String) (x : Nat) :
    x ∈ ((ts.foldl (fun p t => postings_add p t b) post).readFile u) ↔
      (u ∈ ts ∧ x = b) ∨ x ∈ post.readFile u := by
  induction ts generalizing post with
  | nil => simp
  | cons t ts ih =>
    show x ∈ ((ts.foldl _ (postings_add post t b)).readFile u) ↔ _
    rw [ih, mem_readFile_postings_add, List.mem_cons]
    constructor
    · rintro (⟨hu, rfl⟩ | (⟨rfl, rfl⟩ | h))
      · exact Or.inl ⟨Or.inr hu, rfl⟩
      · exact Or.inl ⟨Or.inl rfl, rfl⟩
      · exact Or.inr h
    · rintro (⟨hu | hu, rfl⟩ | h)
      · exact Or.inr (Or.inl ⟨hu.symm, rfl⟩)
      · exact Or.inl ⟨hu, rfl⟩
      · exact Or.inr (Or.inr h)

theorem mem_readFile_build_postings (corpus : List (Nat × String))
    (term : String) (x : Nat) :
    x ∈ (build_postings corpus).readFile term ↔ x ∈ idsOf corpus term := by
  induction corpus using List.reverseRecOn with
  | nil => simp [build_postings, idsOf, Store.readFile]
  | append_singleton docs d ih =>
    unfold build_postings
    rw [List.foldl_append]
    show x ∈ ((tokenize d.2).dedup.foldl (fun p t => postings_add p t d.1)
        (build_postings docs)).readFile term ↔ _
    rw [mem_readFile_fold_postings, idsOf_append, idsOf_single, List.mem_dedup]
    by_cases h : term ∈ tokenize d.2
    · rw [if_pos h]
      simp only [List.mem_append, List.mem_singleton, ih]
      tauto
    · rw [if_neg h]
      simp only [List.mem_append, List.not_mem_nil, or_false, ih]
      tauto

theorem readFile_map_setSorted (st : Store) (u : String) :
    Store.readFile (st.map (fun p => (p.1, setSorted p.2))) u =
      setSorted (st.readFile u) := by
  induction st with
  | nil => rfl
  | cons p ps ih =>
    obtain ⟨t, l⟩ := p
    simp only [List.map_cons]
    rw [readFile_cons, readFile_cons]
    by_cases h : t = u
    · rw [if_pos h, if_pos h]
    · rw [if_neg h, if_neg h, ih]

theorem readFile_build (corpus : List (Nat × String)) (term : String) :
    (build_hierarchical_index corpus).readFile term =
      setSorted (idsOf corpus term) := by
  unfold build_hierarchical_index
  rw [readFile_map_setSorted]
  exact setSorted_eq_of_mem_iff (fun x => mem_readFile_build_postings corpus term x)

/-! Tokenizer facts shared by several claims. -/

theorem mem_wordRunsAux_ne_empty :
    ∀ (cs acc : List Char) (s : String), s ∈ wordRunsAux cs acc → s ≠ "" := by
  intro cs
  induction cs with
  | nil =>
    intro acc s hs
    unfold wordRunsAux at hs
    by_cases h : acc.isEmpty = true
    · rw [if_pos h] at hs
      exact absurd hs (List.not_mem_nil s)
    · rw [if_neg h] at hs
      rcases List.mem_singleton.1 hs with rfl
      intro he
      have hd : acc.reverse = [] := congrArg String.data he
      have hacc : acc = [] := by simpa using congrArg List.reverse hd
      rw [hacc] at h
      exact h rfl
  | cons c cs ih =>
    intro acc s hs
    unfold wordRunsAux at hs
    by_cases hw : isWordChar c = true
    · rw [if_pos hw] at hs
      exact ih _ s hs
    · rw [if_neg hw] at hs
      by_cases ha : acc.isEmpty = true
      · rw [if_pos ha] at hs
        exact ih _ s hs
      · rw [if_neg ha] at hs
        rcases List.mem_cons.1 hs with rfl | hs2
        · intro he
          have hd : acc.reverse = [] := congrArg String.data he
          have hacc : acc = [] := by simpa using congrArg List.reverse hd
          rw [hacc] at ha
          exact ha rfl
        · exact ih _ s hs2

theorem mem_tokenize_ne_empty_not_stopword {text t : String}
    (h : t ∈ tokenize text) : t ≠ "" ∧ t ∉ STOPWORDS := by
  unfold tokenize at h
  rw [List.mem_filter] at h
  obtain ⟨hmem, hsw⟩ := h
  refine ⟨mem_wordRunsAux_ne_empty _ _ t hmem, ?_⟩
  intro hin
  rw [Bool.not_eq_eq_eq_not, Bool.not_true] at hsw
  simp only [List.contains_eq_any_beq, List.any_eq_false, beq_iff_eq] at hsw
  exact hsw t hin rfl

/-! Lemmas about the indexing worker. -/

theorem processItem_skip {contents : Nat → Option String} {s : ConsState}
    {b : Nat} (h : b ∈ s.indexed) : processItem contents s b = (s, []) := by
  unfold processItem
  rw [if_pos h]

theorem processItem_indexed_eq (contents : Nat → Option String) (s : ConsState)
    (b : Nat) :
    (processItem contents s b).1.indexed = s.indexed ∨
      (processItem contents s b).1.indexed = s.indexed ++ [b] := by
  unfold processItem
  by_cases h : b ∈ s.indexed
  · rw [if_pos h]
    exact Or.inl rfl
  · rw [if_neg h]
    cases hq : index_book_incremental s.store b (contents b) with
    | ok st2 => exact Or.inr rfl
    | error e => exact Or.inl rfl

theorem mem_indexed_processItem {contents : Nat → Option String}
    {s : ConsState} {b x : Nat} (h : x ∈ s.indexed) :
    x ∈ (processItem contents s b).1.indexed := by
  rcases processItem_indexed_eq contents s b with he | he
  · rw [he]; exact h
  · rw [he]; exact List.mem_append.2 (Or.inl h)

theorem mem_calls_run_consumer {contents : Nat → Option String}
    {s : ConsState} {q : List (Option Nat)} {b : Nat} (h : b ∈ s.indexed) :
    b ∉ (run_consumer contents s q).2 := by
  induction q generalizing s with
  | nil => exact List.not_mem_nil b
  | cons item rest ih =>
    cases item with
    | none => exact List.not_mem_nil b
    | some c =>
      show b ∉ (processItem contents s c).2 ++ _
      rw [List.mem_append]
      rintro (hc | hc)
      · by_cases hcs : c ∈ s.indexed
        · rw [processItem_skip hcs] at hc
          exact List.not_mem_nil b hc
        · unfold processItem at hc
          rw [if_neg hcs] at hc
          have hbc : b = c := by
            cases hq : index_book_incremental s.store c (contents c) with
            | ok st2 => rw [hq] at hc; exact List.mem_singleton.1 hc
            | error e => rw [hq] at hc; exact List.mem_singleton.1 hc
          exact hcs (hbc ▸ h)
      · exact ih (mem_indexed_processItem h) hc

theorem mem_indexed_run_consumer {contents : Nat → Option String}
    {s : ConsState} {q : List (Option Nat)} {b : Nat}
    (h : b ∈ (run_consumer contents s q).1.indexed) :
    b ∈ s.indexed ∨ (contents b).isSome := by
  induction q generalizing s with
  | nil => exact Or.inl h
  | cons item rest ih =>
    cases item with
    | none => exact Or.inl h
    | some c =>
      rcases ih h with hin | hsome
      · by_cases hcs : c ∈ s.indexed
        · rw [processItem_skip hcs] at hin
          exact Or.inl hin
        · unfold processItem at hin
          rw [if_neg hcs] at hin
          cases hq : index_book_incremental s.store c (contents c) with
          | ok st2 =>
            rw [hq] at hin
            rcases List.mem_append.1 hin with hb | hb
            · exact Or.inl hb
            · rcases List.mem_singleton.1 hb with rfl
              cases hcb : contents b with
              | none => rw [hcb] at hq; exact absurd hq (by simp [index_book_incremental])
              | some text => exact Or.inr (by simp [hcb])
          | error e => rw [hq] at hin; exact Or.inl hin
      · exact Or.inr hsome

/-! Lemmas about the bounded queue. -/

theorem qrun_append (cap : Nat) (q : List Nat) (acts1 acts2 : List QAction) :
    qrun cap q (acts1 ++ acts2) =
      (qrun cap q acts1).bind (fun q2 => qrun cap q2 acts2) := by
  induction acts1 generalizing q with
  | nil => rfl
  | cons a rest ih =>
    cases a with
    | put b =>
      show (if q.length < cap then qrun cap (q ++ [b]) (rest ++ acts2) else none) = _
      by_cases h : q.length < cap
      · rw [if_pos h, ih]
        show _ = (if q.length < cap then qrun cap (q ++ [b]) rest else none).bind _
        rw [if_pos h]
      · rw [if_neg h]
        show _ = (if q.length < cap then qrun cap (q ++ [b]) rest else none).bind _
        rw [if_neg h]
        rfl
    | get =>
      cases q with
      | nil => rfl
      | cons x q2 =>
        show qrun cap q2 (rest ++ acts2) = (qrun cap q2 rest).bind _
        exact ih q2

theorem qrun_no_get_length (cap : Nat) :
    ∀ (acts : List QAction) (q q2 : List Nat), QAction.get ∉ acts →
      qrun cap q acts = some q2 → q.length ≤ q2.length := by
  intro acts
  induction acts with
  | nil =>
    intro q q2 _ hrun
    cases hrun
    exact Nat.le_refl _
  | cons a rest ih =>
    intro q q2 hget hrun
    cases a with
    | put b =>
      unfold qrun at hrun
      by_cases h : q.length < cap
      · rw [if_pos h] at hrun
        have hle := ih (q ++ [b]) q2
          (fun hm => hget (List.mem_cons.2 (Or.inr hm))) hrun
        rw [List.length_append] at hle
        omega
      · rw [if_neg h] at hrun
        exact absurd hrun (by simp)
    | get => exact absurd (List.mem_cons.2 (Or.inl rfl)) hget

theorem qrun_put_needs_get {x b : Nat} {pre post : List QAction}
    (h : (qrun 1 [x] (pre ++ QAction.put b :: post)).isSome) :
    QAction.get ∈ pre := by
  by_contra hget
  rw [qrun_append] at h
  cases hpre : qrun 1 [x] pre with
  | none => rw [hpre] at h; exact absurd h (by simp)
  | some q2 =>
    rw [hpre] at h
    have hlen : 1 ≤ q2.length := qrun_no_get_length 1 pre [x] q2 hget hpre
    have : (qrun 1 q2 (QAction.put b :: post)).isSome := h
    unfold qrun at this
    rw [if_neg (by omega)] at this
    exact absurd this (by simp)

/-! The claims. -/

/-- C1: for every term, `Lookup` returns the posting list as document IDs
sorted in ascending numeric order with no duplicates — both for an index
built by `build_hierarchical_index` over a whole corpus and for one built by
sequential incremental updates; in particular indexing documents with IDs
9, 10, 2 all containing "ship" makes `Lookup "ship"` return `[2, 9, 10]`
(numeric, not lexicographic, order). -/
theorem C1_lookup_sorted_unique :
    (∀ (corpus : List (Nat × String)) (term : String),
        (Lookup (build_hierarchical_index corpus) term).Sorted (· < ·)
          ∧ (Lookup (build_hierarchical_index corpus) term).Nodup)
    ∧ (∀ (corpus : List (Nat × String)) (term : String),
        (Lookup (run_updates [] corpus) term).Sorted (· < ·)
          ∧ (Lookup (run_updates [] corpus) term).Nodup)
    ∧ Lookup (build_hierarchical_index
        [(9, "ship"), (10, "ship"), (2, "ship")]) "ship" = [2, 9, 10]
    ∧ Lookup (run_updates []
        [(9, "ship"), (10, "ship"), (2, "ship")]) "ship" = [2, 9, 10] := by
  refine ⟨?_, ?_, by decide, by decide⟩
  · intro corpus term
    have h : Lookup (build_hierarchical_index corpus) term =
        setSorted (idsOf corpus term) := readFile_build corpus term
    rw [h]
    exact ⟨sorted_setSorted _, nodup_setSorted _⟩
  · intro corpus term
    have h : Lookup (run_updates [] corpus) term =
        setSorted (idsOf corpus term) := readFile_run_updates corpus term
    rw [h]
    exact ⟨sorted_setSorted _, nodup_setSorted _⟩

/-- C2 counterexample: `tokenize` is the `Tokenize` of the claim, but it returns a
Python list, not a set — on the text "cat cat" the returned collection
contains the duplicate "cat" twice, so "returns the set of surviving tokens
... containing no duplicates" is false as stated. -/
theorem C2_tokenize_duplicates_counterexample :
    tokenize "cat cat" = ["cat", "cat"] ∧ ¬ (tokenize "cat cat").Nodup := by
  constructor
  · decide
  · decide

/-- C2 amended: `tokenize` returns the list of surviving tokens (the
lowercased maximal word-character runs of the text with underscores first
replaced by spaces, minus stopwords); the list may contain duplicates, which
the indexing call sites collapse via `set(tokenize(text))`, and it never
contains an empty-string term or a stopword; tokenizing "New_York is BIG"
(with "is" a stopword) yields exactly the tokens "new", "york", "big". -/
theorem C2_tokenize_amended :
    (∀ text t, t ∈ tokenize text → t ≠ "" ∧ t ∉ STOPWORDS)
    ∧ tokenize "New_York is BIG" = ["new", "york", "big"]
    ∧ "is" ∈ STOPWORDS := by
  refine ⟨?_, by decide, by decide⟩
  intro text t ht
  exact mem_tokenize_ne_empty_not_stopword ht

/-- C2 witness: the universally quantified part of the amended claim applied
at the concrete token "new" of the concrete text "New_York is BIG". -/
theorem C2_tokenize_amended_witness : "new" ≠ "" ∧ "new" ∉ STOPWORDS :=
  C2_tokenize_amended.1 "New_York is BIG" "new" (by decide)

/-- C3: `bucket_for_term` is total and deterministic (it is a pure Lean
function); it sends the empty term to "0-9", a term whose first character
uppercases to an ASCII letter A-Z to that single letter, and every other term
(digit or other first character) to "0-9"; in particular "Zebra" goes to "Z",
"42nd" and "" go to "0-9". -/
theorem C3_bucket_total_deterministic :
    bucket_for_term "Zebra" = "Z"
    ∧ bucket_for_term "42nd" = "0-9"
    ∧ bucket_for_term "" = "0-9"
    ∧ ∀ term : String,
        bucket_for_term term =
          match term.data with
          | [] => "0-9"
          | c :: _ =>
            if 'A' ≤ c.toUpper ∧ c.toUpper ≤ 'Z' then String.mk [c.toUpper]
            else "0-9" := by
  refine ⟨by decide, by decide, by decide, ?_⟩
  intro term
  obtain ⟨data⟩ := term
  cases data with
  | nil => rfl
  | cons c rest =>
    show (if 'A' ≤ c.toUpper ∧ c.toUpper ≤ 'Z' then String.mk [c.toUpper]
        else if c.isDigit then "0-9" else "0-9") =
      (if 'A' ≤ c.toUpper ∧ c.toUpper ≤ 'Z' then String.mk [c.toUpper]
        else "0-9")
    by_cases h : 'A' ≤ c.toUpper ∧ c.toUpper ≤ 'Z'
    · rw [if_pos h, if_pos h]
    · rw [if_neg h, if_neg h, ite_self]

/-- C4: starting from an empty index store, building via one
`build_hierarchical_index` over the whole corpus and building via sequential
per-document updates produce identical `Lookup` results for every term; for
the corpus 1 -> "the cat sat", 2 -> "the dog ran" (with "the" a stopword),
`Lookup "the"` is empty and `Lookup "cat" = [1]`, `Lookup "dog" = [2]` under
either build path. -/
theorem C4_rebuild_incremental_equivalence :
    (∀ (corpus : List (Nat × String)) (term : String),
        Lookup (build_hierarchical_index corpus) term =
          Lookup (run_updates [] corpus) term)
    ∧ Lookup (build_hierarchical_index
        [(1, "the cat sat"), (2, "the dog ran")]) "the" = []
    ∧ Lookup (build_hierarchical_index
        [(1, "the cat sat"), (2, "the dog ran")]) "cat" = [1]
    ∧ Lookup (build_hierarchical_index
        [(1, "the cat sat"), (2, "the dog ran")]) "dog" = [2]
    ∧ Lookup (run_updates []
        [(1, "the cat sat"), (2, "the dog ran")]) "the" = []
    ∧ Lookup (run_updates []
        [(1, "the cat sat"), (2, "the dog ran")]) "cat" = [1]
    ∧ Lookup (run_updates []
        [(1, "the cat sat"), (2, "the dog ran")]) "dog" = [2] := by
  refine ⟨?_, by decide, by decide, by decide, by decide, by decide, by decide⟩
  intro corpus term
  show (build_hierarchical_index corpus).readFile term =
    (run_updates [] corpus).readFile term
  rw [readFile_build, readFile_run_updates]

/-- C5: calling `UpdateDocument` (the successful body of
`index_book_incremental`) twice with the same document ID and text leaves
every `Lookup` result unchanged after the second call compared to after the
first: re-adding an already-present ID is a no-op on the stored posting
set. -/
theorem C5_update_document_idempotent :
    ∀ (st : Store) (b : Nat) (text : String) (term : String),
      Lookup (update_document (update_document st b text) b text) term =
        Lookup (update_document st b text) term := by
  intro st b text term
  show (update_document (update_document st b text) b text).readFile term =
    (update_document st b text).readFile term
  rw [readFile_update_document, readFile_update_document]
  by_cases h : term ∈ tokenize text
  · simp only [if_pos h]
    rw [setSorted_cons_setSorted, setSorted_cons_self]
  · simp only [if_neg h]

/-- C6: the indexing worker appends a document ID to the indexed ledger only
after the index-store update for that ID has completed successfully: when no
content is available the update fails and neither the ledger nor the store
changes; when the worker does append the ID, the update returned successfully
and its result is the committed store; globally, an ID in the final ledger was
either there initially or had content available for a successful update. -/
theorem C6_indexed_only_after_success :
    ∀ (contents : Nat → Option String) (s : ConsState) (b : Nat),
      (contents b = none →
        (processItem contents s b).1.indexed = s.indexed
          ∧ (processItem contents s b).1.store = s.store)
      ∧ (b ∉ s.indexed → ∀ st2,
          index_book_incremental s.store b (contents b) = Except.ok st2 →
            (processItem contents s b).1.indexed = s.indexed ++ [b]
              ∧ (processItem contents s b).1.store = st2)
      ∧ (∀ q, b ∈ (run_consumer contents s q).1.indexed →
          b ∈ s.indexed ∨ (contents b).isSome) := by
  intro contents s b
  refine ⟨?_, ?_, fun q h => mem_indexed_run_consumer h⟩
  · intro hnone
    by_cases hb : b ∈ s.indexed
    · rw [processItem_skip hb]
      exact ⟨rfl, rfl⟩
    · unfold processItem
      rw [if_neg hb, hnone]
      exact ⟨rfl, rfl⟩
  · intro hb st2 hok
    unfold processItem
    rw [if_neg hb, hok]
    exact ⟨rfl, rfl⟩

/-- C6 witness: the conditional parts applied at concrete inputs — with no
content for ID 7 the ledger stays empty, and with content "a b" the ledger
becomes exactly the successfully updated ID. -/
theorem C6_indexed_only_after_success_witness :
    (processItem (fun _ => none) ⟨[], []⟩ 7).1.indexed = ([] : List Nat)
    ∧ (processItem (fun _ => some "a b") ⟨[], []⟩ 7).1.indexed = [7] :=
  ⟨((C6_indexed_only_after_success (fun _ => none) ⟨[], []⟩ 7).1 rfl).1,
   ((C6_indexed_only_after_success (fun _ => some "a b") ⟨[], []⟩ 7).2.1
      (by decide) (update_document [] 7 "a b") rfl).1⟩

/-- C7: the indexing worker never passes an ID already present in the indexed
ledger to the index-store update; with a ledger already containing 5 and a
queue containing 5 then 6, only 6 is passed to the update and 5 is
skipped. -/
theorem C7_ledger_resumability :
    (∀ (contents : Nat → Option String) (s : ConsState)
        (q : List (Option Nat)) (b : Nat),
      b ∈ s.indexed → b ∉ (run_consumer contents s q).2)
    ∧ (run_consumer (fun _ => some "ship") ⟨[], [5]⟩
        [some 5, some 6]).2 = [6] := by
  refine ⟨?_, by decide⟩
  intro contents s q b h
  exact mem_calls_run_consumer h

/-- C7 witness: the universally quantified part applied at the concrete
scenario of the claim — ID 5, already in the ledger, is not among the IDs passed
to the update. -/
theorem C7_ledger_resumability_witness :
    5 ∉ (run_consumer (fun _ => some "ship") ⟨[], [5]⟩ [some 5, some 6]).2 :=
  C7_ledger_resumability.1 (fun _ => some "ship") ⟨[], [5]⟩
    [some 5, some 6] 5 (by decide)

/-- C8: `index_book_incremental` raises the distinct not-found condition
(`FileNotFoundError`, modelled as `IndexError.notFound`) exactly when no
content is available for the document ID; when content exists it succeeds, and
the not-found condition is distinguishable from a generic storage failure. -/
theorem C8_not_found_distinct :
    (∀ (st : Store) (b : Nat),
        index_book_incremental st b none = Except.error IndexError.notFound)
    ∧ (∀ (st : Store) (b : Nat) (text : String),
        index_book_incremental st b (some text) =
          Except.ok (update_document st b text))
    ∧ IndexError.notFound ≠ IndexError.storageError :=
  ⟨fun _ _ => rfl, fun _ _ _ => rfl, by decide⟩

/-- C9: `search_postings` normalizes its query exactly as the tokenizer does
(`normalize_term` is the head of `tokenize` of the query, or "" when no token
survives) and looks up only the first surviving token; when no token survives
— empty query, no word characters, or only stopwords — it returns `[]` for
every store, without consulting it. -/
theorem C9_search_normalization :
    (∀ term : String, normalize_term term = (tokenize term).headD "")
    ∧ (∀ (st : Store) (term : String),
        search_postings st term =
          match tokenize term with
          | [] => []
          | t :: _ => Lookup st t)
    ∧ (∀ st : Store, search_postings st "" = []
        ∧ search_postings st "the of and" = []
        ∧ search_postings st "?!, ;" = []) := by
  have hnorm : ∀ term : String, normalize_term term = (tokenize term).headD "" :=
    fun term => rfl
  have hmain : ∀ (st : Store) (term : String),
      search_postings st term =
        match tokenize term with
        | [] => []
        | t :: _ => Lookup st t := by
    intro st term
    unfold search_postings
    cases h : tokenize term with
    | nil =>
      rw [if_pos (by rw [hnorm, h]; rfl)]
    | cons t ts =>
      have htn : normalize_term term = t := by rw [hnorm, h]; rfl
      have hne : t ≠ "" :=
        (mem_tokenize_ne_empty_not_stopword
          (h ▸ List.mem_cons.2 (Or.inl rfl))).1
      rw [htn, if_neg hne]
      rfl
  refine ⟨hnorm, hmain, ?_⟩
  intro st
  refine ⟨?_, ?_, ?_⟩
  · rw [hmain st ""]
    have h : tokenize "" = [] := by decide
    rw [h]
  · rw [hmain st "the of and"]
    have h : tokenize "the of and" = [] := by decide
    rw [h]
  · rw [hmain st "?!, ;"]
    have h : tokenize "?!, ;" = [] := by decide
    rw [h]

/-- C10: with queue capacity 1, a completed schedule of queue operations that
starts with one item already queued can complete a further `put` only after a
`get` has occurred (the bounded-queue push blocks while the queue is full);
concretely, the two producer pushes for two fetched documents cannot both
complete without a dequeue, and do complete once a dequeue happens between
them. -/
theorem C10_backpressure :
    (∀ (x b : Nat) (pre post : List QAction),
      (qrun 1 [x] (pre ++ QAction.put b :: post)).isSome → QAction.get ∈ pre)
    ∧ (∀ b1 b2 : Nat, qrun 1 [] (producer_actions [b1, b2]) = none)
    ∧ (∀ b1 b2 : Nat,
        qrun 1 [] [QAction.put b1, QAction.get, QAction.put b2] =
          some [b2]) := by
  refine ⟨?_, fun b1 b2 => rfl, fun b1 b2 => rfl⟩
  intro x b pre post h
  exact qrun_put_needs_get h

/-- C10 witness: the blocking part applied at a concrete schedule — the only
valid way to complete the second push from a full queue of capacity 1 passes
through a `get`, here exhibited on the schedule get-then-put. -/
theorem C10_backpressure_witness : QAction.get ∈ [QAction.get] :=
  C10_backpressure.1 7 8 [QAction.get] [] (by decide)

end Stage1
